import Mathlib

/-!
# Verification of the `xml_parser` crate

A shallow embedding of `src/lib.rs` of the `xml_parser` repository
(a pest-based XML-subset parser) together with proofs of the spec's claims.

Strings are modelled as `List Char`.  The pest production tree (the
`pest::iterators::Pair` values that `parse_element` consumes) is modelled by
the inductive type `Pair`, carrying the matched rule, the matched text slice
(`as_str`) and the inner pairs (`into_inner`).  Rust `.unwrap()` panics are
modelled by the `BErr.panicked` outcome, distinct from every `ParseError`.

The grammar file `grammar.pest` is referenced by `lib.rs` but is not part of
the sources; grammar-level facts are modelled from the spec where needed and
are marked as such.
-/

namespace XmlParser

/-- Whitespace test used by Rust `str::trim`: `char::is_whitespace`, i.e.
the Unicode White_Space property (U+0009–U+000D, space, U+0085, U+00A0,
U+1680, U+2000–U+200A, U+2028, U+2029, U+202F, U+205F, U+3000). -/
def isWS (c : Char) : Bool :=
  ('\x09' ≤ c && c ≤ '\x0d') || c = ' ' || c = '\x85' || c = '\xa0' ||
    c = '\u1680' || ('\u2000' ≤ c && c ≤ '\u200a') ||
      c = '\u2028' || c = '\u2029' || c = '\u202f' || c = '\u205f' || c = '\u3000'

/-- Rust `str::trim`: remove leading and trailing whitespace. -/
def trim (s : List Char) : List Char :=
  ((s.dropWhile isWS).reverse.dropWhile isWS).reverse

/-- Rust `str::trim_matches(c)`: repeatedly remove the character `c` from
both ends of the string. -/
def trimMatches (c : Char) (s : List Char) : List Char :=
  ((s.dropWhile (· = c)).reverse.dropWhile (· = c)).reverse

/-- The grammar rules of `grammar.pest` that `lib.rs` mentions, plus the
rules §4.1 of the spec prescribes (`Rule::attribute` is rendered `attr`
because `attribute` is a Lean keyword). -/
inductive Rule where
  | xml
  | declaration
  | element
  | full_element
  | empty_element_tag
  | opening_tag
  | closing_tag
  | attr
  | content
  | comment
  | name
  | WHITESPACE
  deriving DecidableEq, Repr

/-- A pest `Pair`: the matched rule, the matched slice of the input
(`as_str`) and the inner pairs (`into_inner`), in order. -/
inductive Pair where
  | mk (rule : Rule) (str : List Char) (inner : List Pair)

/-- `Pair::as_rule`. -/
def Pair.rule : Pair → Rule
  | .mk r _ _ => r

/-- `Pair::as_str`. -/
def Pair.str : Pair → List Char
  | .mk _ s _ => s

/-- `Pair::into_inner`, as the list of inner pairs. -/
def Pair.inner : Pair → List Pair
  | .mk _ _ i => i

/-- The output node type `XmlNode` of `lib.rs` (fields in source order). -/
inductive XmlNode where
  | mk (name : List Char) (content : List Char)
      (attributes : List (List Char × List Char)) (children : List XmlNode)

def XmlNode.name : XmlNode → List Char
  | .mk n _ _ _ => n

def XmlNode.content : XmlNode → List Char
  | .mk _ c _ _ => c

def XmlNode.attributes : XmlNode → List (List Char × List Char)
  | .mk _ _ a _ => a

def XmlNode.children : XmlNode → List XmlNode
  | .mk _ _ _ ch => ch

/-- The error enum `ParseError` of `lib.rs`.  `IoError` wraps the underlying
I/O error, modelled by its detail text. -/
inductive ParseError where
  | TagMismatch (opening ending : List Char)
  | SyntaxError
  | IoError (detail : List Char)
  | InternalError (message : List Char)
  deriving DecidableEq

/-- Outcome of running a fallible Rust function that may additionally panic
(`.unwrap()` on `None`): either a `ParseError` or a panic. -/
inductive BErr where
  | perr (e : ParseError)
  | panicked
  deriving DecidableEq

/-- Debug rendering of a rule, as Rust `{:?}` would print it, used in the
`InternalError` message of `parse_element`. -/
def ruleDebug : Rule → List Char
  | .xml => "xml".data
  | .declaration => "declaration".data
  | .element => "element".data
  | .full_element => "full_element".data
  | .empty_element_tag => "empty_element_tag".data
  | .opening_tag => "opening_tag".data
  | .closing_tag => "closing_tag".data
  | .attr => "attribute".data
  | .content => "content".data
  | .comment => "comment".data
  | .name => "name".data
  | .WHITESPACE => "WHITESPACE".data

/-- The sentinel name `"#comment"` given to comment nodes. -/
def commentName : List Char := "#comment".data

/-- `parse_attributes` of `lib.rs`: walk the pairs in order; for each pair
whose rule is `attribute`, take its first inner token as the key and its
second inner token, with `trim_matches('"')` applied, as the value.  The two
`.unwrap()` calls are modelled by returning `none` (panic) when an
`attribute` pair has fewer than two inner pairs. -/
def parse_attributes : List Pair → Option (List (List Char × List Char))
  | [] => some []
  | p :: rest =>
    if p.rule = .attr then
      match p.inner with
      | k :: v :: _ =>
        match parse_attributes rest with
        | none => none
        | some tail => some ((k.str, trimMatches '"' v.str) :: tail)
      | _ => none
    else
      parse_attributes rest

/-- `parse_opening_tag` of `lib.rs`: filter out `WHITESPACE` pairs, take the
first remaining pair as the name, parse the rest as attributes. -/
def parse_opening_tag (pair : Pair) :
    Except BErr (List Char × List (List Char × List Char)) :=
  match pair.inner.filter (fun p => p.rule ≠ .WHITESPACE) with
  | [] => .error (.perr .SyntaxError)
  | n :: rest =>
    match parse_attributes rest with
    | none => .error .panicked
    | some attrs => .ok (n.str, attrs)

mutual

/-- `parse_element` of `lib.rs`: take the first inner pair of the `element`
production and dispatch on its rule (`full_element`, `empty_element_tag`,
`comment`; any other rule is the defensive `InternalError` branch). -/
def parse_element (element : Pair) : Except BErr XmlNode :=
  match element with
  | .mk _ _ [] => .error (.perr .SyntaxError)
  | .mk _ _ (pair :: _) =>
    match pair with
    | .mk .full_element _ [] => .error (.perr .SyntaxError)
    | .mk .full_element _ (opening :: items) =>
      match parse_opening_tag opening with
      | .error e => .error e
      | .ok (name_open, attrs) => build_items name_open attrs [] [] items
    | .mk .empty_element_tag _ [] => .error .panicked
    | .mk .empty_element_tag _ (n :: rest) =>
      match parse_attributes rest with
      | none => .error .panicked
      | some attrs => .ok (.mk n.str [] attrs [])
    | .mk .comment cstr _ => .ok (.mk commentName cstr [] [])
    | .mk r _ _ =>
      .error (.perr (.InternalError ("Unexpected rule: ".data ++ ruleDebug r)))

/-- The `for item in inner` loop of the `full_element` branch of
`parse_element`: accumulate trimmed `content` runs and recursively built
`element` children, stop at the first `closing_tag` (comparing its name with
the opening name), skip every other rule; falling off the end of the list is
the `Err(ParseError::SyntaxError)` at the end of the loop. -/
def build_items (name_open : List Char)
    (attrs : List (List Char × List Char))
    (content : List Char) (children : List XmlNode) :
    List Pair → Except BErr XmlNode
  | [] => .error (.perr .SyntaxError)
  | item :: rest =>
    match item with
    | .mk .content s _ =>
      build_items name_open attrs (content ++ trim s) children rest
    | .mk .element _ _ =>
      match parse_element item with
      | .error e => .error e
      | .ok child => build_items name_open attrs content (children ++ [child]) rest
    | .mk .closing_tag _ [] => .error .panicked
    | .mk .closing_tag _ (c :: _) =>
      if c.str ≠ name_open then
        .error (.perr (.TagMismatch name_open c.str))
      else
        .ok (.mk name_open content attrs children)
    | _ => build_items name_open attrs content children rest

end

/-- `parse_xml` of `lib.rs`, abstracted over the pest grammar.
`Modelled from the spec:` the grammar file `grammar.pest` that
`Grammar::parse(Rule::xml, input)` runs is not among the sources, so the
grammar layer is an oracle parameter `grammar` returning the sequence of
top-level pairs (`none` models a pest parse error).  The rest is translated
from `parse_xml`: a pest failure or an empty pair stream or a root without
an `element` inner pair is `SyntaxError`; otherwise build the first
`element` inner pair. -/
def parse_xml (grammar : List Char → Option (List Pair))
    (input : List Char) : Except BErr XmlNode :=
  match grammar input with
  | none => .error (.perr .SyntaxError)
  | some pairs =>
    match pairs with
    | [] => .error (.perr .SyntaxError)
    | root :: _ =>
      match root.inner.find? (fun p => p.rule = .element) with
      | none => .error (.perr .SyntaxError)
      | some el => parse_element el

/-- `XmlNode::from_path` of `lib.rs`, abstracted over the two external
collaborators: `grammar` as in `parse_xml`, and `read_to_string` modelling
`fs::read_to_string` (`.error d` is an `io::Error` with detail `d`).  The
`?` operator's `From<io::Error>` conversion wraps the I/O error into
`ParseError::IoError`. -/
def from_path (grammar : List Char → Option (List Pair))
    (read_to_string : List Char → Except (List Char) (List Char))
    (path : List Char) : Except BErr XmlNode :=
  match read_to_string path with
  | .error d => .error (.perr (.IoError d))
  | .ok data => parse_xml grammar data

mutual

/-- `XmlNode::get_contents_of` of `lib.rs`: if this node's name equals the
target and its content is non-empty, return the content; otherwise search
the children in order. -/
def get_contents_of (node : XmlNode) (tag : List Char) : Option (List Char) :=
  match node with
  | .mk nm ct _ ch =>
    if nm = tag ∧ ct ≠ [] then some ct
    else get_contents_of_list ch tag

/-- The `for child in &self.children` loop of `get_contents_of`: return the
first successful recursive lookup. -/
def get_contents_of_list (nodes : List XmlNode) (tag : List Char) :
    Option (List Char) :=
  match nodes with
  | [] => none
  | child :: rest =>
    match get_contents_of child tag with
    | some found => some found
    | none => get_contents_of_list rest tag

end

mutual

/-- `XmlNode::get_nodes` of `lib.rs`: collect this node (if its name equals
the target) followed by the results from each child in order.  The Rust
function returns references; the embedding returns the nodes by value. -/
def get_nodes (node : XmlNode) (tag : List Char) : List XmlNode :=
  match node with
  | .mk nm ct at_ ch =>
    (if nm = tag then [XmlNode.mk nm ct at_ ch] else []) ++ get_nodes_list ch tag

/-- The `for child in &self.children` loop of `get_nodes`. -/
def get_nodes_list (nodes : List XmlNode) (tag : List Char) : List XmlNode :=
  match nodes with
  | [] => []
  | child :: rest => get_nodes child tag ++ get_nodes_list rest tag

end

/-- `"  ".repeat(indent)`: the padding string of `display_node`. -/
def pad (indent : Nat) : List Char := (List.replicate indent [' ', ' ']).flatten

/-- The attribute segment of an opening tag line in `display_node`: one
` key="value"` fragment per attribute, in stored order. -/
def attrsText : List (List Char × List Char) → List Char
  | [] => []
  | (k, v) :: rest => ' ' :: (k ++ '=' :: '"' :: v ++ '"' :: attrsText rest)

mutual

/-- `XmlNode::display_node` of `lib.rs`, producing the written text as a
character list: padded opening tag line with inlined attributes, a content
line (padding plus two extra spaces) when content is non-empty, each child
rendered at `indent + 3`, then the padded closing tag line. -/
def display_node (node : XmlNode) (indent : Nat) : List Char :=
  match node with
  | .mk nm ct at_ ch =>
    pad indent ++ '<' :: (nm ++ attrsText at_) ++ '>' :: '\n' ::
      ((if ct ≠ [] then pad indent ++ ' ' :: ' ' :: (ct ++ ['\n']) else []) ++
        display_node_list ch (indent + 3) ++
          pad indent ++ '<' :: '/' :: (nm ++ ['>', '\n']))

/-- The `for child in &self.children` loop of `display_node`. -/
def display_node_list (nodes : List XmlNode) (indent : Nat) : List Char :=
  match nodes with
  | [] => []
  | child :: rest => display_node child indent ++ display_node_list rest indent

end

mutual

/-- Depth-first pre-order traversal of a node tree (specification device for
the traversal claims about `get_contents_of` and `get_nodes`). -/
def preorder (node : XmlNode) : List XmlNode :=
  match node with
  | .mk nm ct at_ ch => XmlNode.mk nm ct at_ ch :: preorder_list ch

def preorder_list (nodes : List XmlNode) : List XmlNode :=
  match nodes with
  | [] => []
  | child :: rest => preorder child ++ preorder_list rest

end

/-- `Modelled from the spec:` the identifier character set of the grammar's
`name` rule (`grammar.pest` is absent from the sources).  §4.1: letters,
digits, limited punctuation — modelled as ASCII letters, digits and the
punctuation `_`, `-`, `.`, `:`. -/
def isNameChar (c : Char) : Bool :=
  c.isAlpha || c.isDigit || c = '_' || c = '-' || c = '.' || c = ':'

/-- `Modelled from the spec:` a tag name the grammar can produce — a
non-empty string of name characters (§4.1: `name` is non-empty). -/
def validName (s : List Char) : Prop := s ≠ [] ∧ s.all isNameChar

instance (s : List Char) : Decidable (validName s) := by
  unfold validName; infer_instance

/-- Strip exactly one pair of surrounding double quotes, as the spec's words
describe attribute-value extraction (specification device, to be compared
with the source's `trim_matches('"')`). -/
def stripOnePair (s : List Char) : List Char :=
  match s with
  | [] => []
  | c :: rest =>
    if c = '"' ∧ rest.getLast? = some '"' then rest.dropLast else c :: rest

/-! ## Traversal lemmas: `get_contents_of` and `get_nodes` -/

/-- The search predicate of `get_contents_of`: name matches and content is
non-empty. -/
def gcoPred (tag : List Char) (m : XmlNode) : Bool :=
  decide (m.name = tag ∧ m.content ≠ [])

mutual

theorem gco_eq_find (node : XmlNode) (tag : List Char) :
    get_contents_of node tag =
      ((preorder node).find? (gcoPred tag)).map XmlNode.content := by
  match node with
  | .mk nm ct at_ ch =>
    rw [get_contents_of, preorder, List.find?]
    by_cases h : nm = tag ∧ ct ≠ []
    · have hb : gcoPred tag (XmlNode.mk nm ct at_ ch) = true := by
        simp [gcoPred, XmlNode.name, XmlNode.content, h]
      simp only [if_pos h, hb]; rfl
    · have hb : gcoPred tag (XmlNode.mk nm ct at_ ch) = false := by
        simp only [gcoPred, decide_eq_false_iff_not]
        simpa [XmlNode.name, XmlNode.content] using h
      simp only [if_neg h, hb]
      exact gco_list_eq_find ch tag

theorem gco_list_eq_find (nodes : List XmlNode) (tag : List Char) :
    get_contents_of_list nodes tag =
      ((preorder_list nodes).find? (gcoPred tag)).map XmlNode.content := by
  match nodes with
  | [] => rw [get_contents_of_list, preorder_list]; rfl
  | child :: rest =>
    rw [get_contents_of_list, preorder_list, List.find?_append,
      gco_eq_find child tag, gco_list_eq_find rest tag]
    cases (preorder child).find? (gcoPred tag) <;> rfl

end

mutual

theorem gn_eq_filter (node : XmlNode) (tag : List Char) :
    get_nodes node tag =
      (preorder node).filter (fun m => decide (m.name = tag)) := by
  match node with
  | .mk nm ct at_ ch =>
    rw [get_nodes, preorder, List.filter]
    by_cases h : nm = tag
    · simp [XmlNode.name, h, gn_list_eq_filter ch tag]
    · simp [XmlNode.name, h, gn_list_eq_filter ch tag]

theorem gn_list_eq_filter (nodes : List XmlNode) (tag : List Char) :
    get_nodes_list nodes tag =
      (preorder_list nodes).filter (fun m => decide (m.name = tag)) := by
  match nodes with
  | [] => rw [get_nodes_list, preorder_list]; rfl
  | child :: rest =>
    rw [get_nodes_list, preorder_list, List.filter_append,
      gn_eq_filter child tag, gn_list_eq_filter rest tag]

end

/-- `"  ".repeat(n)` is `2 · n` spaces. -/
theorem pad_eq (n : Nat) : pad n = List.replicate (2 * n) ' ' := by
  induction n with
  | zero => rfl
  | succ k ih =>
    rw [pad, List.replicate_succ, List.flatten_cons, ← pad, ih,
      show 2 * (k + 1) = 2 + 2 * k from by ring, List.replicate_add]
    rfl

end XmlParser

namespace XmlParser

/-- **C7.** `get_contents_of` is first-match content lookup: it equals the
content of the first node in depth-first pre-order whose name is the target
and whose content is non-empty, and is `none` when no such node exists; a
name-matching node with empty content fails the predicate and the search
continues. -/
theorem get_contents_of_is_preorder_first_match (node : XmlNode) (tag : List Char) :
    get_contents_of node tag =
      ((preorder node).find? (gcoPred tag)).map XmlNode.content :=
  gco_eq_find node tag

/-- **C8.** `get_nodes` returns exactly the nodes of the tree (itself and
descendants) whose name equals the target, in depth-first pre-order, with
no condition on content and with duplicates kept: it is the pre-order
traversal filtered by name equality. -/
theorem get_nodes_is_preorder_filter (node : XmlNode) (tag : List Char) :
    get_nodes node tag =
      (preorder node).filter (fun m => decide (m.name = tag)) :=
  gn_eq_filter node tag

/-- **C10.** In the canonical rendering, a node rendered at recursion depth
`d` (indent argument `3 · d`, root at `d = 0`) has its opening and closing
tag lines indented by exactly `6 · d` spaces, its non-empty content line by
exactly `6 · d + 2` spaces, and renders each child with indent argument
`3 · (d + 1)` — six spaces more than the parent. -/
theorem display_node_indentation (node : XmlNode) (d : Nat) :
    display_node node (3 * d) =
      List.replicate (6 * d) ' ' ++ '<' :: (node.name ++ attrsText node.attributes) ++
        '>' :: '\n' ::
        ((if node.content ≠ [] then
            List.replicate (6 * d + 2) ' ' ++ (node.content ++ ['\n'])
          else []) ++
          display_node_list node.children (3 * (d + 1)) ++
            List.replicate (6 * d) ' ' ++ '<' :: '/' :: (node.name ++ ['>', '\n'])) := by
  match node with
  | .mk nm ct at_ ch =>
    rw [display_node]
    simp only [XmlNode.name, XmlNode.content, XmlNode.attributes, XmlNode.children]
    rw [pad_eq, show 2 * (3 * d) = 6 * d from by ring,
      show 3 * d + 3 = 3 * (d + 1) from by ring, List.replicate_add]
    simp [List.append_assoc]

/-- **C9.** When the file read fails, `from_path` fails with `IoError`
wrapping the underlying I/O error detail, and in particular never with
`SyntaxError` (for any behaviour of the grammar layer). -/
theorem from_path_io_error (grammar : List Char → Option (List Pair))
    (read_to_string : List Char → Except (List Char) (List Char))
    (path detail : List Char)
    (hread : read_to_string path = .error detail) :
    from_path grammar read_to_string path = .error (.perr (.IoError detail)) ∧
      from_path grammar read_to_string path ≠ .error (.perr .SyntaxError) := by
  rw [from_path, hread]
  exact ⟨rfl, by simp⟩

/-- Witness for C9: a file system on which every read fails with
`No such file or directory` makes `from_path` return exactly that `IoError`,
whatever the grammar does. -/
theorem from_path_io_error_witness :
    from_path (fun _ => none)
        (fun _ => .error "No such file or directory".data)
        "nonexistent.xml".data
      = .error (.perr (.IoError "No such file or directory".data)) :=
  (from_path_io_error (fun _ => none)
    (fun _ => .error "No such file or directory".data)
    "nonexistent.xml".data "No such file or directory".data rfl).1

/-! ## The `full_element` loop of `parse_element` -/

/-- Whether a build outcome is `Ok`. -/
def isOkB : Except BErr XmlNode → Bool
  | .ok _ => true
  | .error _ => false

/-- An inner production that the `full_element` loop passes over while
accumulating, without returning: it is not a `closing_tag`, and if it is an
`element` its recursive build succeeds. -/
def accumulable (p : Pair) : Bool :=
  decide (p.rule ≠ .closing_tag) &&
    (decide (p.rule ≠ .element) || isOkB (parse_element p))

/-- The text the loop accumulates from a production list: the trimmed
`content` runs, concatenated in order. -/
def contentOf : List Pair → List Char
  | [] => []
  | p :: rest => (if p.rule = .content then trim p.str else []) ++ contentOf rest

/-- The children the loop accumulates from a production list: the
successfully built `element` productions, in order. -/
def childrenOf : List Pair → List XmlNode
  | [] => []
  | p :: rest =>
    (if p.rule = .element then
      match parse_element p with
      | .ok n => [n]
      | .error _ => []
    else []) ++ childrenOf rest

/-- The raw (untrimmed) text runs of the `content` productions of a list,
in order. -/
def contentRuns : List Pair → List (List Char)
  | [] => []
  | p :: rest => (if p.rule = .content then [p.str] else []) ++ contentRuns rest

theorem contentOf_eq_runs (ps : List Pair) :
    contentOf ps = ((contentRuns ps).map trim).flatten := by
  induction ps with
  | nil => rfl
  | cons p rest ih =>
    rw [contentOf, contentRuns, ih]
    by_cases h : p.rule = .content <;> simp [h]

/-- Stepping the loop over a prefix of accumulable items only accumulates:
trimmed `content` runs are appended to the content accumulator, built
children to the child accumulator, and everything else is skipped. -/
theorem build_items_append (a : List Char)
    (attrs : List (List Char × List Char)) (c0 : List Char)
    (ch0 : List XmlNode) (pre rest : List Pair)
    (h : pre.all accumulable = true) :
    build_items a attrs c0 ch0 (pre ++ rest)
      = build_items a attrs (c0 ++ contentOf pre) (ch0 ++ childrenOf pre) rest := by
  induction pre generalizing c0 ch0 with
  | nil => simp [contentOf, childrenOf]
  | cons p ps ih =>
    rw [List.all_cons, Bool.and_eq_true] at h
    obtain ⟨hp, hps⟩ := h
    cases p with
    | mk r s i =>
      cases r
      case closing_tag => simp [accumulable, Pair.rule] at hp
      case content =>
        rw [List.cons_append, build_items, ih _ _ hps]
        simp [contentOf, childrenOf, Pair.rule, Pair.str, List.append_assoc]
      case element =>
        simp only [accumulable, Pair.rule] at hp
        simp only [ne_eq, not_true_eq_false, decide_false_eq_false] at hp
        have hok : isOkB (parse_element (.mk .element s i)) = true := by
          revert hp
          cases isOkB (parse_element (.mk .element s i)) <;> simp
        cases hpe : parse_element (.mk .element s i) with
        | error e => rw [hpe] at hok; simp [isOkB] at hok
        | ok n =>
          rw [List.cons_append, build_items, hpe]
          simp [contentOf, childrenOf, Pair.rule, hpe, ih _ _ hps, List.append_assoc]
      all_goals
        simp only [List.cons_append, build_items]
        rw [show ps.append rest = ps ++ rest from rfl, ih _ _ hps]
        simp [contentOf, childrenOf, Pair.rule]

/-- Running the loop to the end of the item list without meeting a
`closing_tag` lands on the trailing `Err(ParseError::SyntaxError)`. -/
theorem build_items_exhaust (a : List Char)
    (attrs : List (List Char × List Char)) (c0 : List Char)
    (ch0 : List XmlNode) (items : List Pair)
    (h : items.all accumulable = true) :
    build_items a attrs c0 ch0 items = .error (.perr .SyntaxError) := by
  have hstep := build_items_append a attrs c0 ch0 items [] h
  rw [List.append_nil] at hstep
  rw [hstep, build_items]

/-- Meeting a `closing_tag` whose first inner pair spells `b`: the loop
returns the completed node when `b` equals the opening name, and exactly
`TagMismatch {opening, ending}` otherwise. -/
theorem build_items_closing (a : List Char)
    (attrs : List (List Char × List Char)) (c0 : List Char)
    (ch0 : List XmlNode) (cs : List Char) (cr : Rule) (b : List Char)
    (ci : List Pair) (crest : List Pair) (post : List Pair) :
    build_items a attrs c0 ch0 (Pair.mk .closing_tag cs (Pair.mk cr b ci :: crest) :: post)
      = if b = a then .ok (.mk a c0 attrs ch0)
        else .error (.perr (.TagMismatch a b)) := by
  rw [build_items]
  by_cases h : b = a <;> simp [Pair.str, h]

/-- The `full_element` dispatch of `parse_element`: once the opening tag is
parsed, the remaining inner productions go through the loop. -/
theorem parse_element_full (er : Rule) (es : List Char) (fs : List Char)
    (opening : Pair) (items erest : List Pair) (a : List Char)
    (attrs : List (List Char × List Char))
    (hopen : parse_opening_tag opening = .ok (a, attrs)) :
    parse_element (.mk er es (.mk .full_element fs (opening :: items) :: erest))
      = build_items a attrs [] [] items := by
  rw [parse_element, hopen]

/-! ## Whitespace lemmas about `trim` -/

theorem head?_append_left {α : Type} (a b : List α) (h : a ≠ []) :
    (a ++ b).head? = a.head? := by
  cases a with
  | nil => exact absurd rfl h
  | cons x xs => rfl

theorem dropWhile_idem {α : Type} (p : α → Bool) (l : List α) :
    (l.dropWhile p).dropWhile p = l.dropWhile p := by
  induction l with
  | nil => rfl
  | cons x xs ih =>
    rw [List.dropWhile_cons]
    by_cases h : p x = true
    · rw [if_pos h]; exact ih
    · rw [if_neg h, List.dropWhile_cons, if_neg h]

/-- A string with no leading whitespace: `dropWhile` removes nothing. -/
def noLeadWS (s : List Char) : Prop := s.dropWhile isWS = s

/-- A string with no trailing whitespace. -/
def noTrailWS (s : List Char) : Prop := s.reverse.dropWhile isWS = s.reverse

theorem noLeadWS_cons (x : Char) (xs : List Char) :
    noLeadWS (x :: xs) ↔ isWS x = false := by
  constructor
  · intro h
    rw [noLeadWS, List.dropWhile_cons] at h
    by_cases hw : isWS x = true
    · rw [if_pos hw] at h
      have hlen := (List.dropWhile_suffix (l := xs) isWS).length_le
      rw [h] at hlen
      simp at hlen
    · simpa using hw
  · intro h
    rw [noLeadWS, List.dropWhile_cons, if_neg (by simp [h])]

theorem noLeadWS_append (a b : List Char) (ha : noLeadWS a) (hb : noLeadWS b) :
    noLeadWS (a ++ b) := by
  cases a with
  | nil => simpa using hb
  | cons x xs =>
    rw [List.cons_append, noLeadWS_cons]
    exact (noLeadWS_cons x xs).mp ha

theorem noTrailWS_append (a b : List Char) (ha : noTrailWS a) (hb : noTrailWS b) :
    noTrailWS (a ++ b) := by
  rw [noTrailWS, List.reverse_append]
  exact noLeadWS_append b.reverse a.reverse hb ha

/-- The trimmed string has no trailing whitespace. -/
theorem trim_noTrailWS (s : List Char) : noTrailWS (trim s) := by
  rw [noTrailWS, trim, List.reverse_reverse]
  exact dropWhile_idem isWS _

/-- The trimmed string has no leading whitespace. -/
theorem trim_noLeadWS (s : List Char) : noLeadWS (trim s) := by
  obtain ⟨t, ht⟩ := List.dropWhile_suffix (l := (s.dropWhile isWS).reverse) isWS
  have hD : noLeadWS (s.dropWhile isWS) := dropWhile_idem isWS s
  have hrw : trim s ++ t.reverse = s.dropWhile isWS := by
    rw [trim]
    have := congrArg List.reverse ht
    simpa [List.reverse_append] using this
  cases hT : trim s with
  | nil => simp [noLeadWS, hT]
  | cons x xs =>
    rw [hT, List.cons_append] at hrw
    rw [← hrw, noLeadWS_cons] at hD
    rw [noLeadWS_cons]
    exact hD

/-- Trimming only strips whitespace from the edges: the original run is the
trimmed run surrounded by all-whitespace margins, so whitespace internal to
the run is preserved as written. -/
theorem trim_decomposition (s : List Char) :
    ∃ u v, s = u ++ trim s ++ v ∧ u.all isWS = true ∧ v.all isWS = true := by
  refine ⟨s.takeWhile isWS, ((s.dropWhile isWS).reverse.takeWhile isWS).reverse,
    ?_, ?_, ?_⟩
  · conv_lhs => rw [← List.takeWhile_append_dropWhile (p := isWS) (l := s)]
    rw [List.append_assoc]
    congr 1
    have h := (List.takeWhile_append_dropWhile
      (p := isWS) (l := (s.dropWhile isWS).reverse)).symm
    have h2 := congrArg List.reverse h
    rw [List.reverse_reverse, List.reverse_append] at h2
    rw [trim]
    exact h2
  · rw [List.all_eq_true]
    intro c hc
    exact List.mem_takeWhile_imp hc
  · rw [List.all_eq_true]
    intro c hc
    rw [List.mem_reverse] at hc
    exact List.mem_takeWhile_imp hc

theorem noLeadWS_flatten (L : List (List Char)) (h : ∀ l ∈ L, noLeadWS l) :
    noLeadWS L.flatten := by
  induction L with
  | nil => simp [noLeadWS]
  | cons x xs ih =>
    rw [List.flatten_cons]
    exact noLeadWS_append x xs.flatten (h x (by simp))
      (ih fun l hl => h l (by simp [hl]))

theorem noTrailWS_flatten (L : List (List Char)) (h : ∀ l ∈ L, noTrailWS l) :
    noTrailWS L.flatten := by
  induction L with
  | nil => simp [noTrailWS]
  | cons x xs ih =>
    rw [List.flatten_cons]
    exact noTrailWS_append x xs.flatten (h x (by simp))
      (ih fun l hl => h l (by simp [hl]))

/-! ## Claims C1, C2, C4: the `full_element` branch -/

/-- The `element` production of the malformed fragment `<a>1` (an opening
tag and a content run with no closing tag), as the grammar layer would have
to emit it for the defended-against case to arise. -/
def c1elem : Pair :=
  .mk .element "<a>1".data
    [.mk .full_element "<a>1".data
      [.mk .opening_tag "<a>".data [.mk .name "a".data []],
       .mk .content "1".data []]]

/-- Whether a build outcome is an `InternalError` (with any message). -/
def isInternalError : Except BErr XmlNode → Bool
  | .error (.perr (.InternalError _)) => true
  | _ => false

/-- **C1** (counterexample). On a `full_element` whose inner productions
are exhausted without a `closing_tag`, `parse_element` returns
`SyntaxError` — not `InternalError` (with any message) as the claim
states. -/
theorem unclosed_internal_error_counterexample :
    parse_element c1elem = .error (.perr .SyntaxError) ∧
      isInternalError (parse_element c1elem) = false := by
  have h : parse_element c1elem = .error (.perr .SyntaxError) := by
    simp [c1elem, parse_element, build_items, parse_opening_tag,
      parse_attributes, Pair.rule, Pair.inner, Pair.str]
  exact ⟨h, by rw [h]; rfl⟩

/-- **C1** (amended). If the iteration over a `full_element`'s inner
productions exhausts them all without encountering a `closing_tag` (every
item is accumulable: not a closing tag, and recursive builds succeed),
parsing fails with the `SyntaxError` classification — not by panicking and
not by returning a Node. -/
theorem unclosed_full_element_syntax_error
    (er : Rule) (es fs : List Char) (opening : Pair) (items erest : List Pair)
    (a : List Char) (attrs : List (List Char × List Char))
    (hopen : parse_opening_tag opening = .ok (a, attrs))
    (hacc : items.all accumulable = true) :
    parse_element (.mk er es (.mk .full_element fs (opening :: items) :: erest))
      = .error (.perr .SyntaxError) := by
  rw [parse_element_full er es fs opening items erest a attrs hopen]
  exact build_items_exhaust a attrs [] [] items hacc

/-- Witness for the amended C1, at the concrete unclosed fragment `<a>1`. -/
theorem unclosed_full_element_syntax_error_witness :
    parse_element c1elem = .error (.perr .SyntaxError) :=
  unclosed_full_element_syntax_error .element "<a>1".data "<a>1".data
    (.mk .opening_tag "<a>".data [.mk .name "a".data []])
    [.mk .content "1".data []] [] "a".data [] rfl (by decide)

/-- **C2.** A `full_element` whose opening tag spells `a`, whose items up to
the closing tag are accumulable, and whose closing tag spells `b ≠ a`,
makes `parse_element` fail with exactly
`TagMismatch {opening := a, ending := b}` — both names, in those roles, and
no other classification.  (The grammar file is absent from the sources:
inputs of the shape `<a>...</b>` are characterised here as such
`full_element` productions, per §4.1 of the spec.) -/
theorem tag_mismatch_exact
    (er : Rule) (es fs : List Char) (opening : Pair)
    (pre post erest crest ci : List Pair) (cs : List Char) (cr : Rule)
    (a b : List Char) (attrs : List (List Char × List Char))
    (hopen : parse_opening_tag opening = .ok (a, attrs))
    (hpre : pre.all accumulable = true)
    (hne : b ≠ a) :
    parse_element (.mk er es (.mk .full_element fs
        (opening :: (pre ++ Pair.mk .closing_tag cs (Pair.mk cr b ci :: crest) :: post))
        :: erest))
      = .error (.perr (.TagMismatch a b)) := by
  rw [parse_element_full _ _ _ _ _ _ _ _ hopen,
    build_items_append a attrs [] [] pre _ hpre, build_items_closing]
  simp [hne]

/-- The `element` production of `<a>1</b>`. -/
def c2elem : Pair :=
  .mk .element "<a>1</b>".data
    [.mk .full_element "<a>1</b>".data
      [.mk .opening_tag "<a>".data [.mk .name "a".data []],
       .mk .content "1".data [],
       .mk .closing_tag "</b>".data [.mk .name "b".data []]]]

/-- Witness for C2 at `<a>1</b>`: the result is exactly
`TagMismatch {opening := "a", ending := "b"}`. -/
theorem tag_mismatch_exact_witness :
    parse_element c2elem = .error (.perr (.TagMismatch "a".data "b".data)) :=
  tag_mismatch_exact .element "<a>1</b>".data "<a>1</b>".data
    (.mk .opening_tag "<a>".data [.mk .name "a".data []])
    [.mk .content "1".data []] [] [] [] []
    "</b>".data .name "a".data "b".data [] rfl (by decide) (by decide)

/-- **C4.** A successfully built `full_element`'s content is the
concatenation, in document order, of its `content` runs each trimmed of
leading and trailing whitespace; the result has no leading or trailing
whitespace; and each run equals its trimmed text surrounded by
all-whitespace margins, so whitespace internal to a run is preserved. -/
theorem full_element_content_concat
    (er : Rule) (es fs : List Char) (opening : Pair)
    (pre post erest crest ci : List Pair) (cs : List Char) (cr : Rule)
    (a : List Char) (attrs : List (List Char × List Char))
    (hopen : parse_opening_tag opening = .ok (a, attrs))
    (hpre : pre.all accumulable = true) :
    parse_element (.mk er es (.mk .full_element fs
        (opening :: (pre ++ Pair.mk .closing_tag cs (Pair.mk cr a ci :: crest) :: post))
        :: erest))
      = .ok (.mk a (((contentRuns pre).map trim).flatten) attrs (childrenOf pre)) ∧
    noLeadWS (((contentRuns pre).map trim).flatten) ∧
    noTrailWS (((contentRuns pre).map trim).flatten) ∧
    ∀ run ∈ contentRuns pre, ∃ u v,
      run = u ++ trim run ++ v ∧ u.all isWS = true ∧ v.all isWS = true := by
  refine ⟨?_, ?_, ?_, ?_⟩
  · rw [parse_element_full _ _ _ _ _ _ _ _ hopen,
      build_items_append a attrs [] [] pre _ hpre, build_items_closing]
    simp [contentOf_eq_runs]
  · exact noLeadWS_flatten _ fun l hl => by
      obtain ⟨r, -, rfl⟩ := List.mem_map.mp hl
      exact trim_noLeadWS r
  · exact noTrailWS_flatten _ fun l hl => by
      obtain ⟨r, -, rfl⟩ := List.mem_map.mp hl
      exact trim_noTrailWS r
  · exact fun run _ => trim_decomposition run

/-- The `element` production of
`<root>  Hello  <a>1</a> World </root>`: two disjoint text runs interleaved
with one child element. -/
def c4elem : Pair :=
  .mk .element "<root>  Hello  <a>1</a> World </root>".data
    [.mk .full_element "<root>  Hello  <a>1</a> World </root>".data
      [.mk .opening_tag "<root>".data [.mk .name "root".data []],
       .mk .content "  Hello  ".data [],
       .mk .element "<a>1</a>".data
         [.mk .full_element "<a>1</a>".data
           [.mk .opening_tag "<a>".data [.mk .name "a".data []],
            .mk .content "1".data [],
            .mk .closing_tag "</a>".data [.mk .name "a".data []]]],
       .mk .content " World ".data [],
       .mk .closing_tag "</root>".data [.mk .name "root".data []]]]

/-- Witness for C4: both runs are trimmed and concatenated in order around
the child element, yielding content `HelloWorld` with the child `<a>`
holding `1`. -/
theorem full_element_content_concat_witness :
    parse_element c4elem
      = .ok (.mk "root".data "HelloWorld".data []
          [.mk "a".data "1".data [] []]) := by
  have h := (full_element_content_concat .element
    "<root>  Hello  <a>1</a> World </root>".data
    "<root>  Hello  <a>1</a> World </root>".data
    (.mk .opening_tag "<root>".data [.mk .name "root".data []])
    [.mk .content "  Hello  ".data [],
     .mk .element "<a>1</a>".data
       [.mk .full_element "<a>1</a>".data
         [.mk .opening_tag "<a>".data [.mk .name "a".data []],
          .mk .content "1".data [],
          .mk .closing_tag "</a>".data [.mk .name "a".data []]]],
     .mk .content " World ".data []]
    [] [] [] [] "</root>".data .name "root".data [] rfl
    (by simp [accumulable, Pair.rule, isOkB, parse_element, build_items,
      parse_opening_tag, parse_attributes, Pair.inner, Pair.str])).1
  simp only [List.cons_append, List.nil_append] at h
  unfold c4elem
  rw [h]
  simp [contentRuns, childrenOf, Pair.rule, Pair.str, trim, isWS,
    parse_element, build_items, parse_opening_tag, parse_attributes, Pair.inner]

/-! ## Claims C5 and C6: `comment` and `empty_element_tag` branches -/

/-- **C5.** A `comment` production builds an `Ok` Node whose content is the
comment pair's matched text verbatim (the grammar's `comment` rule spans the
`<!--`/`-->` delimiters, which are not stripped), whose name is the sentinel
`"#comment"`, with no attributes and no children; and the sentinel differs
from every tag name the grammar's `name` rule can produce, since `#` is not
a name character. -/
theorem comment_sentinel_node :
    (∀ (er : Rule) (estr cstr : List Char) (cinner erest : List Pair),
      parse_element (.mk er estr (.mk .comment cstr cinner :: erest))
        = .ok (.mk commentName cstr [] [])) ∧
    ∀ s, validName s → s ≠ commentName := by
  constructor
  · intro er estr cstr cinner erest
    rw [parse_element]
  · intro s hs heq
    subst heq
    exact absurd hs.2 (by decide)

/-- Witness for C5 at the comment `<!-- note -->` (and the legal tag name
`root`, which the sentinel cannot collide with). -/
theorem comment_sentinel_node_witness :
    parse_element (.mk .element "<!-- note -->".data
        [.mk .comment "<!-- note -->".data []])
      = .ok (.mk commentName "<!-- note -->".data [] []) ∧
    "root".data ≠ commentName :=
  ⟨comment_sentinel_node.1 .element "<!-- note -->".data "<!-- note -->".data [] [],
   comment_sentinel_node.2 "root".data (by decide)⟩

/-- **C6.** An `empty_element_tag` production with a name pair builds an
`Ok` Node (never an absent result) carrying the tag's name and attributes,
empty content and no children — whatever else follows the name inside the
tag, so no closing-tag matching happens on this branch. -/
theorem empty_element_node
    (er : Rule) (estr ts : List Char) (n : Pair) (rest erest : List Pair)
    (attrs : List (List Char × List Char))
    (hattrs : parse_attributes rest = some attrs) :
    parse_element (.mk er estr (.mk .empty_element_tag ts (n :: rest) :: erest))
      = .ok (.mk n.str [] attrs []) := by
  rw [parse_element, hattrs]

/-- Witness for C6 at `<empty id="2" />`. -/
theorem empty_element_node_witness :
    parse_element (.mk .element "<empty id=\"2\" />".data
        [.mk .empty_element_tag "<empty id=\"2\" />".data
          [.mk .name "empty".data [],
           .mk .attr "id=\"2\"".data
             [.mk .name "id".data [], .mk .name "\"2\"".data []]]])
      = .ok (.mk "empty".data [] [("id".data, "2".data)] []) :=
  empty_element_node .element "<empty id=\"2\" />".data "<empty id=\"2\" />".data
    (.mk .name "empty".data [])
    [.mk .attr "id=\"2\"".data
      [.mk .name "id".data [], .mk .name "\"2\"".data []]]
    [] [("id".data, "2".data)] rfl

/-! ## Claim C3: attribute extraction -/

/-- A value token of the shape the grammar's `attribute` rule produces: an
opening double quote, interior text free of double quotes, a closing double
quote. -/
def isQuoted (s : List Char) : Bool :=
  match s with
  | [] => false
  | c :: rest =>
    decide (c = '"') &&
      (match rest.getLast? with
       | none => false
       | some d => decide (d = '"') && rest.dropLast.all (fun x => decide (x ≠ '"')))

theorem dropWhile_eq_self_of_head {α : Type} (p : α → Bool) (l : List α)
    (h : ∀ x ∈ l.head?, p x = false) : l.dropWhile p = l := by
  cases l with
  | nil => rfl
  | cons x xs =>
    rw [List.dropWhile_cons, if_neg]
    simp [h x (by rfl)]

theorem mem_of_head? {α : Type} (l : List α) (x : α) (h : x ∈ l.head?) :
    x ∈ l := by
  cases l with
  | nil => simp at h
  | cons a t =>
    simp only [List.head?, Option.mem_def, Option.some.injEq] at h
    rw [← h]
    exact List.mem_cons_self a t

/-- Computing `trim_matches('"')` on a quoted token whose interior is free
of quotes: exactly the surrounding pair is removed. -/
theorem trimMatches_quoted (mid : List Char)
    (hall : mid.all (fun x => decide (x ≠ '"')) = true) :
    trimMatches '"' ('"' :: (mid ++ ['"'])) = mid := by
  cases mid with
  | nil => rfl
  | cons m ms =>
    rw [List.all_cons, Bool.and_eq_true, decide_eq_true_eq] at hall
    obtain ⟨hm1, hms⟩ := hall
    rw [trimMatches, List.cons_append, List.dropWhile_cons, if_pos (by simp),
      List.dropWhile_cons, if_neg (by simp [hm1]), List.reverse_cons,
      List.reverse_append, List.reverse_singleton, List.singleton_append,
      List.cons_append, List.dropWhile_cons, if_pos (by simp)]
    have hdw : (ms.reverse ++ [m]).dropWhile (fun x => decide (x = '"'))
        = ms.reverse ++ [m] := by
      apply dropWhile_eq_self_of_head
      intro x hx
      have hxm := mem_of_head? _ x hx
      rcases List.mem_append.mp hxm with h1 | h2
      · have := List.all_eq_true.mp hms x (List.mem_reverse.mp h1)
        simpa using this
      · rw [List.mem_singleton.mp h2]
        simp [hm1]
    rw [hdw]
    simp [List.reverse_append]

/-- On a grammar-shaped quoted token, the source's `trim_matches('"')` and
the spec's strip-exactly-one-pair agree: both return the interior text. -/
theorem quoted_strip (s : List Char) (h : isQuoted s = true) :
    ∃ mid, s = '"' :: (mid ++ ['"']) ∧ mid.all (fun x => decide (x ≠ '"')) = true ∧
      trimMatches '"' s = mid ∧ stripOnePair s = mid := by
  cases s with
  | nil => simp [isQuoted] at h
  | cons c rest =>
    rw [isQuoted, Bool.and_eq_true, decide_eq_true_eq] at h
    obtain ⟨hc, hrest⟩ := h
    subst hc
    cases hL : rest.getLast? with
    | none => rw [hL] at hrest; simp at hrest
    | some d =>
      rw [hL, Bool.and_eq_true, decide_eq_true_eq] at hrest
      obtain ⟨hd, hall⟩ := hrest
      subst hd
      have hne : rest ≠ [] := by
        intro hnil; rw [hnil] at hL; simp at hL
      have hsplit : rest.dropLast ++ ['"'] = rest := by
        have h1 := List.dropLast_append_getLast hne
        have h2 : rest.getLast hne = '"' := by
          have := List.getLast?_eq_getLast rest hne
          rw [hL] at this
          exact (Option.some.injEq .. ▸ this).symm
        rw [h2] at h1
        exact h1
      refine ⟨rest.dropLast, by rw [hsplit], hall, ?_, ?_⟩
      · conv_lhs => rw [← hsplit]
        exact trimMatches_quoted rest.dropLast hall
      · rw [stripOnePair, if_pos ⟨rfl, hL⟩]

/-- An `attribute` production shaped as the grammar guarantees: its second
inner token is a quoted value (non-`attribute` pairs are unconstrained). -/
def wfAttrPair (p : Pair) : Bool :=
  decide (p.rule ≠ .attr) ||
    (match p.inner with
     | _ :: v :: _ => isQuoted v.str
     | _ => false)

/-- **C3.** On grammar-shaped input, `parse_attributes` extracts, from each
`attribute` production in order of appearance, the pair of its first inner
token (key) and its second inner token with exactly one pair of surrounding
double quotes stripped and no other processing (`stripOnePair`, the spec's
wording, agreeing with the source's `trim_matches('"')` on such tokens);
non-`attribute` pairs contribute nothing, and duplicate keys are all
recorded, neither merged nor rejected. -/
theorem attributes_key_value_order (ps : List Pair)
    (h : ps.all wfAttrPair = true) :
    parse_attributes ps = some (ps.filterMap fun p =>
      if p.rule = .attr then
        match p.inner with
        | k :: v :: _ => some (k.str, stripOnePair v.str)
        | _ => none
      else none) := by
  induction ps with
  | nil => rfl
  | cons p rest ih =>
    rw [List.all_cons, Bool.and_eq_true] at h
    obtain ⟨hp, hrest⟩ := h
    by_cases hr : p.rule = .attr
    · have hq : ∃ k v t, p.inner = k :: v :: t ∧ isQuoted v.str = true := by
        cases hi : p.inner with
        | nil => rw [wfAttrPair, hi] at hp; simp [hr] at hp
        | cons k tl =>
          cases tl with
          | nil => rw [wfAttrPair, hi] at hp; simp [hr] at hp
          | cons v t =>
            refine ⟨k, v, t, rfl, ?_⟩
            rw [wfAttrPair, hi] at hp
            simpa [hr] using hp
      obtain ⟨k, v, t, hi, hqv⟩ := hq
      obtain ⟨mid, hs, hall, htm, hsp⟩ := quoted_strip v.str hqv
      rw [parse_attributes, if_pos hr, hi, ih hrest, List.filterMap_cons]
      simp [hr, hi, htm, hsp]
    · rw [parse_attributes, if_neg hr, ih hrest, List.filterMap_cons]
      simp [hr]

/-- Witness for C3: two attributes with the same key `id` (with a skipped
whitespace pair between them) yield both pairs, unquoted, in input order. -/
theorem attributes_key_value_order_witness :
    parse_attributes
        [.mk .attr "id=\"1\"".data [.mk .name "id".data [], .mk .name "\"1\"".data []],
         .mk .WHITESPACE " ".data [],
         .mk .attr "id=\"2\"".data [.mk .name "id".data [], .mk .name "\"2\"".data []]]
      = some [("id".data, "1".data), ("id".data, "2".data)] := by
  rw [attributes_key_value_order _ (by decide)]
  decide

